import Mathlib

/-!
Verification of the block-mining module (`crates/rethnet_evm/src/miner.rs`).

The development shallowly embeds the miner's pure logic:
* `calculate_next_base_fee` — the post-London base-fee update rule;
* `effective_miner_fee` / `priorityComparator` — the priority transaction
  ordering used by `MineOrdering::Priority`;
* `mineLoop` — the admission loop of `mine_block`, with the external
  Block Builder abstracted as an oracle `add` and the mempool cursor as a
  list with sender eviction.

Machine integers (`U256`) are modelled as `Nat` with explicit reduction
modulo `2 ^ 256` at the operations where the source can overflow
(multiplication, addition, subtraction); this matches the wrapping
(release-mode) semantics of the `ruint` arithmetic operators used by the
source. `saturating_sub` coincides with truncated `Nat` subtraction.
Operations that panic in the source (`expect` on a missing base fee,
division by zero) are modelled by returning `none`.
-/

/-- The modulus of 256-bit unsigned integer arithmetic. -/
def U256MOD : Nat := 2 ^ 256

/-- The fields of `rethnet_eth::block::Header` read by
`calculate_next_base_fee` (the remaining header fields are irrelevant to
the miner's arithmetic). -/
structure Header where
  gas_limit : Nat
  gas_used : Nat
  base_fee_per_gas : Option Nat
  deriving Repr, DecidableEq

/-- Embedding of `calculate_next_base_fee` (miner.rs, lines 218–248).
`none` models the panics: the `expect` on a missing parent base fee and
`U256` division by a zero gas target.  The multiplication and the final
addition wrap modulo `2 ^ 256`; `saturating_sub` is `Nat` subtraction. -/
def calculate_next_base_fee (parent : Header) : Option Nat :=
  let elasticity := 2
  let base_fee_max_change_denominator := 8
  let parent_gas_target := parent.gas_limit / elasticity
  match parent.base_fee_per_gas with
  | none => none
  | some parent_base_fee =>
    if parent_gas_target = 0 then none
    else if parent.gas_used < parent_gas_target then
      let gas_used_delta := parent_gas_target - parent.gas_used
      let delta :=
        parent_base_fee * gas_used_delta % U256MOD
          / parent_gas_target / base_fee_max_change_denominator
      some (parent_base_fee - delta)
    else if parent.gas_used = parent_gas_target then
      some parent_base_fee
    else
      let gas_used_delta := parent.gas_used - parent_gas_target
      let delta :=
        parent_base_fee * gas_used_delta % U256MOD
          / parent_gas_target / base_fee_max_change_denominator
      some ((parent_base_fee + max delta 1) % U256MOD)

/-- The three-branch next-base-fee rule exactly as the specification words
it (§4.3), in exact (unbounded) natural-number arithmetic with truncating
division: refinement target for `calculate_next_base_fee`. -/
def next_base_fee_spec (parent_base_fee gas_used gas_limit : Nat) : Nat :=
  if gas_used < gas_limit / 2 then
    parent_base_fee -
      parent_base_fee * (gas_limit / 2 - gas_used) / (gas_limit / 2) / 8
  else if gas_used = gas_limit / 2 then
    parent_base_fee
  else
    parent_base_fee +
      max 1 (parent_base_fee * (gas_used - gas_limit / 2) / (gas_limit / 2) / 8)

section BaseFeeLemmas

/-- Unfolding of the calculator when the parent carries a base fee and has
a positive gas target, with the wrap on the multiplication removed under a
no-overflow bound and the wrap on the addition removed under a result
bound. -/
theorem calc_next_base_fee_eq_spec (L g pbf : Nat) (ht : 0 < L / 2)
    (hmul : pbf * (if g < L / 2 then L / 2 - g else g - L / 2) < U256MOD)
    (hadd : L / 2 < g →
      pbf + max (pbf * (g - L / 2) / (L / 2) / 8) 1 < U256MOD) :
    calculate_next_base_fee ⟨L, g, some pbf⟩ =
      some (next_base_fee_spec pbf g L) := by
  unfold calculate_next_base_fee next_base_fee_spec
  simp only [Nat.pos_iff_ne_zero] at ht
  rcases Nat.lt_trichotomy g (L / 2) with hlt | heq | hgt
  · rw [if_pos hlt] at hmul
    simp only [ht, if_false, hlt, if_true, Nat.mod_eq_of_lt hmul]
  · simp [ht, heq]
  · have hnlt : ¬ g < L / 2 := Nat.not_lt.mpr (Nat.le_of_lt hgt)
    have hne : ¬ g = L / 2 := Nat.ne_of_gt hgt
    rw [if_neg hnlt] at hmul
    have hadd' := hadd hgt
    simp only [ht, if_false, hnlt, hne, Nat.mod_eq_of_lt hmul,
      Nat.mod_eq_of_lt hadd']
    rw [Nat.max_comm]

/-- The downward adjustment is antitone in `gas_used`. -/
theorem delta_down_antitone (pbf t g1 g2 : Nat) (h : g1 ≤ g2) :
    pbf * (t - g2) / t / 8 ≤ pbf * (t - g1) / t / 8 := by
  refine Nat.div_le_div_right (Nat.div_le_div_right ?_)
  exact Nat.mul_le_mul_left _ (by omega)

/-- The upward adjustment is monotone in `gas_used`. -/
theorem delta_up_monotone (pbf t g1 g2 : Nat) (h : g1 ≤ g2) :
    pbf * (g1 - t) / t / 8 ≤ pbf * (g2 - t) / t / 8 := by
  refine Nat.div_le_div_right (Nat.div_le_div_right ?_)
  exact Nat.mul_le_mul_left _ (by omega)

/-- The exact-arithmetic rule is monotone in `gas_used`. -/
theorem next_base_fee_spec_mono (pbf L g1 g2 : Nat) (h : g1 ≤ g2) :
    next_base_fee_spec pbf g1 L ≤ next_base_fee_spec pbf g2 L := by
  unfold next_base_fee_spec
  rcases Nat.lt_trichotomy g1 (L / 2) with h1 | h1 | h1 <;>
    rcases Nat.lt_trichotomy g2 (L / 2) with h2 | h2 | h2 <;>
      try omega
  · -- both below target
    rw [if_pos h1, if_pos h2]
    exact Nat.sub_le_sub_left (delta_down_antitone pbf (L / 2) g1 g2 h) _
  · -- g1 below, g2 at target
    rw [if_pos h1, if_neg (by omega), if_pos h2]
    exact Nat.sub_le _ _
  · -- g1 below, g2 above
    rw [if_pos h1, if_neg (by omega), if_neg (by omega)]
    exact le_trans (Nat.sub_le _ _) (Nat.le_add_right _ _)
  · -- both at target
    rw [if_neg (by omega), if_pos h1, if_neg (by omega), if_pos h2]
  · -- g1 at target, g2 above
    rw [if_neg (by omega), if_pos h1, if_neg (by omega), if_neg (by omega)]
    exact Nat.le_add_right _ _
  · -- both above target
    rw [if_neg (by omega), if_neg (by omega), if_neg (by omega),
      if_neg (by omega)]
    exact Nat.add_le_add_left
      (max_le_max le_rfl (delta_up_monotone pbf (L / 2) g1 g2 h)) _

end BaseFeeLemmas

/-- C1: for a parent header carrying a base fee, with positive gas target
`target = gas_limit / 2` and no 256-bit overflow in the intermediate
product nor in the final sum (the spec's stated precondition), the
calculator returns exactly the spec's three-branch rule in exact
truncating arithmetic: below target, `parent_base_fee` minus
`parent_base_fee * (target - gas_used) / target / 8` floored at zero; at
target, `parent_base_fee`; above target, `parent_base_fee` plus
`max 1 (parent_base_fee * (gas_used - target) / target / 8)`. -/
theorem next_base_fee_three_branch_rule (L g pbf : Nat) (ht : 0 < L / 2)
    (hmul : pbf * (if g < L / 2 then L / 2 - g else g - L / 2) < U256MOD)
    (hadd : L / 2 < g →
      pbf + max (pbf * (g - L / 2) / (L / 2) / 8) 1 < U256MOD) :
    calculate_next_base_fee ⟨L, g, some pbf⟩ =
      some (next_base_fee_spec pbf g L) :=
  calc_next_base_fee_eq_spec L g pbf ht hmul hadd

/-- Witness for C1 at the first literal vector. -/
theorem next_base_fee_three_branch_rule_witness :
    (0 < 10000000 / 2) ∧
    calculate_next_base_fee ⟨10000000, 10000000, some 1000000000⟩ =
      some (next_base_fee_spec 1000000000 10000000 10000000) :=
  ⟨by decide,
    next_base_fee_three_branch_rule 10000000 10000000 1000000000
      (by decide) (by decide) (by decide)⟩

/-- C2: the calculator reproduces the six literal test vectors. -/
theorem next_base_fee_literal_cases :
    calculate_next_base_fee ⟨10000000, 10000000, some 1000000000⟩
        = some 1125000000 ∧
    calculate_next_base_fee ⟨12000000, 10000000, some 1000000000⟩
        = some 1083333333 ∧
    calculate_next_base_fee ⟨14000000, 10000000, some 1000000000⟩
        = some 1053571428 ∧
    calculate_next_base_fee ⟨10000000, 9000000, some 1072671875⟩
        = some 1179939062 ∧
    calculate_next_base_fee ⟨18000000, 10000000, some 0⟩ = some 1 ∧
    calculate_next_base_fee ⟨18000000, 10000000, some 1⟩ = some 2 := by
  refine ⟨?_, ?_, ?_, ?_, ?_, ?_⟩ <;> decide

/-- Bridge between the calculator and the exact rule under the uniform
overflow bound `pbf * gas_limit < 2 ^ 256` and `gas_used ≤ gas_limit`. -/
theorem calc_next_base_fee_eq_spec_of_le (L g pbf : Nat) (ht : 0 < L / 2)
    (hg : g ≤ L) (hov : pbf * L < U256MOD) :
    calculate_next_base_fee ⟨L, g, some pbf⟩ =
      some (next_base_fee_spec pbf g L) := by
  apply calc_next_base_fee_eq_spec L g pbf ht
  · have hdist : (if g < L / 2 then L / 2 - g else g - L / 2) ≤ L := by
      split <;> omega
    exact lt_of_le_of_lt (Nat.mul_le_mul le_rfl hdist) hov
  · intro hgt
    have hL2 : 2 ≤ L := by omega
    have h2p : pbf * 2 ≤ pbf * L := Nat.mul_le_mul le_rfl hL2
    have hdist : g - L / 2 ≤ 2 * (L / 2) := by omega
    have h1 : pbf * (g - L / 2) ≤ pbf * 2 * (L / 2) := by
      calc pbf * (g - L / 2) ≤ pbf * (2 * (L / 2)) :=
            Nat.mul_le_mul le_rfl hdist
        _ = pbf * 2 * (L / 2) := by ring
    have hd : pbf * (g - L / 2) / (L / 2) ≤ pbf * 2 := by
      calc pbf * (g - L / 2) / (L / 2)
          ≤ pbf * 2 * (L / 2) / (L / 2) := Nat.div_le_div_right h1
        _ = pbf * 2 := Nat.mul_div_cancel _ ht
    have hmax : max (pbf * (g - L / 2) / (L / 2) / 8) 1 ≤ pbf / 4 + 1 :=
      max_le (by omega) (by omega)
    have hM4 : 4 < U256MOD := by norm_num [U256MOD]
    omega

/-- C7: for a fixed parent base fee and gas limit with positive gas
target, no overflow, and gas usage within the limit, the computed next
base fee is monotonically non-decreasing in `gas_used`. -/
theorem next_base_fee_monotone_in_gas_used (L g1 g2 pbf : Nat)
    (ht : 0 < L / 2) (h12 : g1 ≤ g2) (hg : g2 ≤ L)
    (hov : pbf * L < U256MOD) :
    ∃ r1 r2, calculate_next_base_fee ⟨L, g1, some pbf⟩ = some r1 ∧
      calculate_next_base_fee ⟨L, g2, some pbf⟩ = some r2 ∧ r1 ≤ r2 :=
  ⟨next_base_fee_spec pbf g1 L, next_base_fee_spec pbf g2 L,
    calc_next_base_fee_eq_spec_of_le L g1 pbf ht (le_trans h12 hg) hov,
    calc_next_base_fee_eq_spec_of_le L g2 pbf ht hg hov,
    next_base_fee_spec_mono pbf L g1 g2 h12⟩

/-- Witness for C7: gas usage 0 versus full limit at the first literal
vector's parameters. -/
theorem next_base_fee_monotone_in_gas_used_witness :
    (0 < 10000000 / 2) ∧
    ∃ r1 r2,
      calculate_next_base_fee ⟨10000000, 0, some 1000000000⟩ = some r1 ∧
      calculate_next_base_fee ⟨10000000, 10000000, some 1000000000⟩
        = some r2 ∧ r1 ≤ r2 :=
  ⟨by decide,
    next_base_fee_monotone_in_gas_used 10000000 0 10000000 1000000000
      (by decide) (by decide) (by decide) (by decide)⟩

/-- The fields of a pending transaction read by the mining loop and the
priority comparator (`PendingTransaction` lives outside this crate; only
`gas_price()`, `max_priority_fee_per_gas()` and `caller()` are consulted
by miner.rs). `gas_price` is the max-fee cap; `max_priority_fee_per_gas`
is `none` for legacy transactions. -/
structure PendingTransaction where
  gas_price : Nat
  max_priority_fee_per_gas : Option Nat
  caller : Nat
  deriving Repr, DecidableEq

/-- `mempool::OrderedTransaction`: a pending transaction paired with its
monotonic insertion-order id. -/
structure OrderedTransaction where
  transaction : PendingTransaction
  order_id : Nat
  deriving Repr, DecidableEq

/-- 256-bit wrapping subtraction: the semantics of `U256` `-` in release
builds (the miner performs `max_fee_per_gas - base_fee` with no underflow
guard). -/
def wrappingSub (a b : Nat) : Nat := (a + U256MOD - b) % U256MOD

/-- Embedding of the `effective_miner_fee` closure (miner.rs, lines
130–139): with no base fee the flat gas price; otherwise the minimum of
the priority-fee cap (defaulting to the gas price) and the wrapping
difference `gas_price - base_fee`. -/
def effective_miner_fee (base_fee : Option Nat)
    (transaction : PendingTransaction) : Nat :=
  let max_fee_per_gas := transaction.gas_price
  let max_priority_fee_per_gas :=
    transaction.max_priority_fee_per_gas.getD max_fee_per_gas
  match base_fee with
  | none => max_fee_per_gas
  | some base_fee => min max_priority_fee_per_gas
      (wrappingSub max_fee_per_gas base_fee)

/-- Embedding of the `MineOrdering::Priority` comparator (miner.rs, lines
129–152): descending effective miner fee, ties broken by ascending
insertion-order id. -/
def priorityComparator (base_fee : Option Nat)
    (lhs rhs : OrderedTransaction) : Ordering :=
  let ordering := compare (effective_miner_fee base_fee rhs.transaction)
    (effective_miner_fee base_fee lhs.transaction)
  if ordering = Ordering.eq then compare lhs.order_id rhs.order_id
  else ordering

/-- The effective fee exactly as the specification words it: flat gas
price when no base fee is active, else `min` of the priority-fee cap and
the (exact, integer) difference of the max-fee cap and the base fee. -/
def effective_fee_spec (base_fee : Option Nat)
    (transaction : PendingTransaction) : Int :=
  match base_fee with
  | none => (transaction.gas_price : Int)
  | some base_fee =>
      min ((transaction.max_priority_fee_per_gas.getD
              transaction.gas_price : Nat) : Int)
        ((transaction.gas_price : Int) - (base_fee : Int))

/-- When the minuend dominates, the wrapping subtraction agrees with exact
subtraction. -/
theorem wrappingSub_eq_sub (a b : Nat) (hba : b ≤ a) (ha : a < U256MOD) :
    wrappingSub a b = a - b := by
  have hM : U256MOD = 2 ^ 256 := rfl
  unfold wrappingSub
  rw [hM] at ha ⊢
  omega

/-- With no underflow, the code's effective miner fee is the spec's
effective fee. -/
theorem effective_miner_fee_eq_spec (base_fee : Option Nat)
    (t : PendingTransaction) (hgp : t.gas_price < U256MOD)
    (hbf : ∀ b, base_fee = some b → b ≤ t.gas_price) :
    (effective_miner_fee base_fee t : Int) = effective_fee_spec base_fee t := by
  rcases base_fee with _ | b
  · rfl
  · have hb : b ≤ t.gas_price := hbf b rfl
    show ((min (t.max_priority_fee_per_gas.getD t.gas_price)
        (wrappingSub t.gas_price b) : Nat) : Int) =
      min ((t.max_priority_fee_per_gas.getD t.gas_price : Nat) : Int)
        ((t.gas_price : Int) - (b : Int))
    rw [wrappingSub_eq_sub _ _ hb hgp, ← Nat.cast_sub hb, ← Nat.cast_min]

/-- C3: when the fixed-width subtraction cannot underflow (every compared
transaction's max-fee cap is at least the active base fee, all values
256-bit), the priority comparator places `lhs` before `rhs` exactly when
`lhs` has the strictly larger spec effective fee, or the fees tie and
`lhs` has the smaller insertion-order id. -/
theorem priority_comparator_orders_by_fee (base_fee : Option Nat)
    (lhs rhs : OrderedTransaction)
    (hl : lhs.transaction.gas_price < U256MOD)
    (hr : rhs.transaction.gas_price < U256MOD)
    (hbl : ∀ b, base_fee = some b → b ≤ lhs.transaction.gas_price)
    (hbr : ∀ b, base_fee = some b → b ≤ rhs.transaction.gas_price) :
    priorityComparator base_fee lhs rhs = Ordering.lt ↔
      (effective_fee_spec base_fee rhs.transaction <
        effective_fee_spec base_fee lhs.transaction ∨
       (effective_fee_spec base_fee lhs.transaction =
          effective_fee_spec base_fee rhs.transaction ∧
        lhs.order_id < rhs.order_id)) := by
  have hleq := effective_miner_fee_eq_spec base_fee lhs.transaction hl hbl
  have hreq := effective_miner_fee_eq_spec base_fee rhs.transaction hr hbr
  unfold priorityComparator
  rw [← hleq, ← hreq, Nat.cast_lt, Nat.cast_inj]
  set a := effective_miner_fee base_fee lhs.transaction with ha
  set b := effective_miner_fee base_fee rhs.transaction with hb
  rcases Nat.lt_trichotomy b a with h | h | h
  · rw [Nat.compare_eq_lt.mpr h, if_neg (by decide)]
    exact ⟨fun _ => Or.inl h, fun _ => rfl⟩
  · rw [Nat.compare_eq_eq.mpr h, if_pos rfl, Nat.compare_eq_lt]
    constructor
    · intro hid
      exact Or.inr ⟨h.symm, hid⟩
    · rintro (hlt | ⟨_, hid⟩)
      · omega
      · exact hid
  · rw [Nat.compare_eq_gt.mpr h, if_neg (by decide)]
    constructor
    · intro hc
      exact absurd hc (by decide)
    · rintro (hlt | ⟨heq, _⟩) <;> omega

/-- Witness for C3: base fee 10, `lhs` fee caps (100, default) id 0,
`rhs` fee caps (50, default) id 1. -/
theorem priority_comparator_orders_by_fee_witness :
    priorityComparator (some 10) ⟨⟨100, none, 0⟩, 0⟩ ⟨⟨50, none, 1⟩, 1⟩
        = Ordering.lt ↔
      (effective_fee_spec (some 10) ⟨50, none, 1⟩ <
        effective_fee_spec (some 10) ⟨100, none, 0⟩ ∨
       (effective_fee_spec (some 10) ⟨100, none, 0⟩ =
          effective_fee_spec (some 10) ⟨50, none, 1⟩ ∧ (0 : Nat) < 1)) :=
  priority_comparator_orders_by_fee (some 10)
    ⟨⟨100, none, 0⟩, 0⟩ ⟨⟨50, none, 1⟩, 1⟩ (by decide) (by decide)
    (fun b hb => by injection hb with h; subst h; decide)
    (fun b hb => by injection hb with h; subst h; decide)

/-- C8 counterexample: a transaction whose max-fee cap (5) is strictly
below the active base fee (10).  The fixed-width subtraction underflows:
it wraps to `2 ^ 256 - 5` instead of the exact difference `-5`, so the
code's effective fee (5) disagrees with the spec's effective fee (`-5`).
-/
theorem priority_fee_subtraction_underflows :
    PendingTransaction.gas_price ⟨5, none, 0⟩ < 10 ∧
    wrappingSub 5 10 = U256MOD - 5 ∧
    effective_miner_fee (some 10) ⟨5, none, 0⟩ = 5 ∧
    effective_fee_spec (some 10) ⟨5, none, 0⟩ = -5 ∧
    (effective_miner_fee (some 10) ⟨5, none, 0⟩ : Int) ≠
      effective_fee_spec (some 10) ⟨5, none, 0⟩ := by
  refine ⟨?_, ?_, ?_, ?_, ?_⟩ <;> decide

/-- C8 amended: the comparator's subtraction is underflow-free — equal to
the exact difference — precisely when the transaction's max-fee cap is at
least the base fee; when the cap is strictly below the base fee the
subtraction wraps modulo `2 ^ 256`, yielding
`2 ^ 256 - (base_fee - gas_price)` instead. -/
theorem effective_fee_underflow_characterization (bf : Nat)
    (t : PendingTransaction) (hgp : t.gas_price < U256MOD)
    (hbf : bf < U256MOD) :
    (bf ≤ t.gas_price →
      effective_miner_fee (some bf) t =
        min (t.max_priority_fee_per_gas.getD t.gas_price)
          (t.gas_price - bf)) ∧
    (t.gas_price < bf →
      effective_miner_fee (some bf) t =
        min (t.max_priority_fee_per_gas.getD t.gas_price)
          (U256MOD - (bf - t.gas_price))) := by
  constructor
  · intro h
    simp only [effective_miner_fee]
    rw [wrappingSub_eq_sub _ _ h hgp]
  · intro h
    have hw : wrappingSub t.gas_price bf = U256MOD - (bf - t.gas_price) := by
      have hM : U256MOD = 2 ^ 256 := rfl
      unfold wrappingSub
      rw [hM] at hbf hgp ⊢
      omega
    simp only [effective_miner_fee]
    rw [hw]

/-- Witness for C8's amended statement at base fee 10, max-fee cap 5. -/
theorem effective_fee_underflow_characterization_witness :
    ((5 : Nat) < U256MOD ∧ (10 : Nat) < U256MOD) ∧
    ((10 ≤ PendingTransaction.gas_price ⟨5, none, 0⟩ →
      effective_miner_fee (some 10) ⟨5, none, 0⟩ =
        min ((Option.getD (none : Option Nat) 5)) (5 - 10)) ∧
     (PendingTransaction.gas_price ⟨5, none, 0⟩ < 10 →
      effective_miner_fee (some 10) ⟨5, none, 0⟩ =
        min ((Option.getD (none : Option Nat) 5)) (U256MOD - (10 - 5)))) :=
  ⟨⟨by decide, by decide⟩,
    effective_fee_underflow_characterization 10 ⟨5, none, 0⟩
      (by decide) (by decide)⟩

/-- C10: a transaction with no priority-fee cap gets its gas price
substituted as the cap, so with an active base fee (not exceeding the gas
price) its effective miner fee is its gas price minus the base fee. -/
theorem effective_fee_of_no_priority_cap (bf : Nat)
    (t : PendingTransaction) (hnone : t.max_priority_fee_per_gas = none)
    (hb : bf ≤ t.gas_price) (hgp : t.gas_price < U256MOD) :
    effective_miner_fee (some bf) t = t.gas_price - bf := by
  simp only [effective_miner_fee, hnone, Option.getD_none]
  rw [wrappingSub_eq_sub _ _ hb hgp]
  exact min_eq_right (Nat.sub_le _ _)

/-- Witness for C10: gas price 100, no priority cap, base fee 10. -/
theorem effective_fee_of_no_priority_cap_witness :
    PendingTransaction.max_priority_fee_per_gas ⟨100, none, 0⟩ = none ∧
    effective_miner_fee (some 10) ⟨100, none, 0⟩ = 100 - 10 :=
  ⟨by decide,
    effective_fee_of_no_priority_cap 10 ⟨100, none, 0⟩ rfl
      (by decide) (by decide)⟩

/-- Classification of `BlockBuilder::add_transaction` failures as matched
by `mine_block` (miner.rs, lines 172–183): the two skip-classified
variants `BlockTransactionError::ExceedsBlockGasLimit` and
`BlockTransactionError::InvalidTransaction(GasPriceLessThanBasefee)`, and
everything else (`other`, indexed abstractly). -/
inductive AddError where
  | exceedsBlockGasLimit
  | gasPriceLessThanBasefee
  | other (code : Nat)
  deriving Repr, DecidableEq

/-- Outcome of one `BlockBuilder::add_transaction` call over an abstract
world-state type `σ`: success carries the execution result, the collected
trace and the updated state; failure carries the error (validation
failures commit no state change). Results and traces are opaque and
modelled as `Nat`. -/
inductive AddOutcome (σ : Type) where
  | ok (result : Nat) (trace : Nat) (next : σ)
  | err (e : AddError)

/-- `remove_caller` on the mempool cursor. Modelled from the spec:
`MemPool::iter`'s cursor is outside this crate; §6 specifies
`evict_sender(address)` as removing that sender's remaining not-yet-yielded
transactions, here a filter on the remaining queue. -/
def removeCaller (caller : Nat) (queue : List OrderedTransaction) :
    List OrderedTransaction :=
  queue.filter (fun t => t.transaction.caller ≠ caller)

/-- Embedding of the admission loop of `mine_block` (miner.rs, lines
158–189) over the remaining cursor queue, threading the world state `s`
and the `results`/`traces` accumulators.  The Block Builder is the oracle
`add`.  A fatal error returns the error together with the state at the
abort (the source surfaces only the error; the state is carried here to
express that prior inclusions' effects are not rolled back). -/
def mineLoop {σ : Type} (add : σ → PendingTransaction → AddOutcome σ)
    (min_gas_price : Nat) (queue : List OrderedTransaction) (s : σ)
    (results traces : List Nat) :
    Except (AddError × σ) (List Nat × List Nat × σ) :=
  match queue with
  | [] => Except.ok (results, traces, s)
  | tx :: rest =>
    if tx.transaction.gas_price < min_gas_price then
      mineLoop add min_gas_price
        (removeCaller tx.transaction.caller rest) s results traces
    else
      match add s tx.transaction with
      | AddOutcome.ok result trace next =>
        mineLoop add min_gas_price rest next
          (results ++ [result]) (traces ++ [trace])
      | AddOutcome.err AddError.exceedsBlockGasLimit =>
        mineLoop add min_gas_price
          (removeCaller tx.transaction.caller rest) s results traces
      | AddOutcome.err AddError.gasPriceLessThanBasefee =>
        mineLoop add min_gas_price
          (removeCaller tx.transaction.caller rest) s results traces
      | AddOutcome.err (AddError.other c) =>
        Except.error (AddError.other c, s)
termination_by queue.length
decreasing_by
  all_goals simp only [removeCaller, List.length_cons]
  all_goals first
    | exact Nat.lt_succ_of_le (List.length_filter_le _ _)
    | omega

/-- The chained-successful-adds relation: starting from state `s`, the
transactions of `included` are added one after the other, each succeeding
with the listed result and trace, ending in state `sFin`. -/
inductive AddsTo {σ : Type} (add : σ → PendingTransaction → AddOutcome σ) :
    σ → List OrderedTransaction → List Nat → List Nat → σ → Prop where
  | nil (s : σ) : AddsTo add s [] [] [] s
  | cons {s s1 s2 : σ} {r t : Nat} {tx : OrderedTransaction}
      {txs : List OrderedTransaction} {rs ts : List Nat} :
      add s tx.transaction = AddOutcome.ok r t s1 →
      AddsTo add s1 txs rs ts s2 →
      AddsTo add s (tx :: txs) (r :: rs) (t :: ts) s2

/-- Lengths along a chain of successful adds agree. -/
theorem AddsTo.lengths {σ : Type} {add : σ → PendingTransaction → AddOutcome σ}
    {s sFin : σ} {included : List OrderedTransaction} {rs ts : List Nat}
    (h : AddsTo add s included rs ts sFin) :
    included.length = rs.length ∧ rs.length = ts.length := by
  induction h with
  | nil => exact ⟨rfl, rfl⟩
  | cons h1 h2 ih => simpa using ih

/-- One loop step on a transaction priced below the floor: the sender is
evicted from the remaining queue and the loop continues with accumulators
and state untouched. -/
theorem mineLoop_below_floor_step {σ : Type}
    (add : σ → PendingTransaction → AddOutcome σ) (m : Nat)
    (tx : OrderedTransaction) (rest : List OrderedTransaction) (s : σ)
    (res tr : List Nat) (htx : tx.transaction.gas_price < m) :
    mineLoop add m (tx :: rest) s res tr =
      mineLoop add m (removeCaller tx.transaction.caller rest) s res tr := by
  conv_lhs => rw [mineLoop.eq_def]
  simp [htx]

/-- A successful run of the admission loop decomposes (relative to the
initial accumulators) into a chain of successful adds over a sublist of
the offered queue, every element of which met the gas-price floor. -/
theorem mineLoop_ok_chain {σ : Type}
    (add : σ → PendingTransaction → AddOutcome σ) (m : Nat)
    (queue : List OrderedTransaction) (s : σ) (res0 tr0 : List Nat) :
    ∀ results traces sFin,
      mineLoop add m queue s res0 tr0 = Except.ok (results, traces, sFin) →
      ∃ included rs ts,
        results = res0 ++ rs ∧ traces = tr0 ++ ts ∧
        List.Sublist included queue ∧
        (∀ tx ∈ included, ¬ tx.transaction.gas_price < m) ∧
        AddsTo add s included rs ts sFin := by
  induction queue, s, res0, tr0 using mineLoop.induct add m with
  | case1 s res tr =>
    intro results traces sFin h
    rw [mineLoop.eq_def] at h
    simp only [Except.ok.injEq, Prod.mk.injEq] at h
    obtain ⟨rfl, rfl, rfl⟩ := h
    exact ⟨[], [], [], by simp, by simp, List.nil_sublist _, by simp,
      AddsTo.nil s⟩
  | case2 s res tr tx rest htx ih =>
    intro results traces sFin h
    rw [mineLoop_below_floor_step add m tx rest s res tr htx] at h
    obtain ⟨inc, rs, ts, h1, h2, h3, h4, h5⟩ := ih results traces sFin h
    exact ⟨inc, rs, ts, h1, h2,
      h3.trans ((List.filter_sublist rest).trans
        (List.sublist_cons_self tx rest)), h4, h5⟩
  | case3 s res tr tx rest htx result trace next hadd ih =>
    intro results traces sFin h
    conv_lhs at h => rw [mineLoop.eq_def]
    simp only [htx, if_false, hadd] at h
    obtain ⟨inc, rs, ts, h1, h2, h3, h4, h5⟩ := ih results traces sFin h
    refine ⟨tx :: inc, result :: rs, trace :: ts, ?_, ?_,
      h3.cons₂ tx, ?_, AddsTo.cons hadd h5⟩
    · simpa [List.append_assoc] using h1
    · simpa [List.append_assoc] using h2
    · intro t ht
      rcases List.mem_cons.mp ht with rfl | ht
      · exact htx
      · exact h4 t ht
  | case4 s res tr tx rest htx hadd ih =>
    intro results traces sFin h
    conv_lhs at h => rw [mineLoop.eq_def]
    simp only [htx, if_false, hadd] at h
    obtain ⟨inc, rs, ts, h1, h2, h3, h4, h5⟩ := ih results traces sFin h
    exact ⟨inc, rs, ts, h1, h2,
      h3.trans ((List.filter_sublist rest).trans
        (List.sublist_cons_self tx rest)), h4, h5⟩
  | case5 s res tr tx rest htx hadd ih =>
    intro results traces sFin h
    conv_lhs at h => rw [mineLoop.eq_def]
    simp only [htx, if_false, hadd] at h
    obtain ⟨inc, rs, ts, h1, h2, h3, h4, h5⟩ := ih results traces sFin h
    exact ⟨inc, rs, ts, h1, h2,
      h3.trans ((List.filter_sublist rest).trans
        (List.sublist_cons_self tx rest)), h4, h5⟩
  | case6 s res tr tx rest htx c hadd =>
    intro results traces sFin h
    conv_lhs at h => rw [mineLoop.eq_def]
    simp only [htx, if_false, hadd] at h
    exact absurd h (by simp)

/-- A fatal run of the admission loop: the surfaced error is one the loop
does not classify as a skip, and the state paired with it is the state
reached by the chain of prior successful adds (no rollback). -/
theorem mineLoop_err_chain {σ : Type}
    (add : σ → PendingTransaction → AddOutcome σ) (m : Nat)
    (queue : List OrderedTransaction) (s : σ) (res0 tr0 : List Nat) :
    ∀ e sFin,
      mineLoop add m queue s res0 tr0 = Except.error (e, sFin) →
      (∃ c, e = AddError.other c) ∧
      ∃ included rs ts,
        List.Sublist included queue ∧
        AddsTo add s included rs ts sFin := by
  induction queue, s, res0, tr0 using mineLoop.induct add m with
  | case1 s res tr =>
    intro e sFin h
    rw [mineLoop.eq_def] at h
    exact absurd h (by simp)
  | case2 s res tr tx rest htx ih =>
    intro e sFin h
    rw [mineLoop_below_floor_step add m tx rest s res tr htx] at h
    obtain ⟨he, inc, rs, ts, h3, h5⟩ := ih e sFin h
    exact ⟨he, inc, rs, ts,
      h3.trans ((List.filter_sublist rest).trans
        (List.sublist_cons_self tx rest)), h5⟩
  | case3 s res tr tx rest htx result trace next hadd ih =>
    intro e sFin h
    conv_lhs at h => rw [mineLoop.eq_def]
    simp only [htx, if_false, hadd] at h
    obtain ⟨he, inc, rs, ts, h3, h5⟩ := ih e sFin h
    exact ⟨he, tx :: inc, result :: rs, trace :: ts,
      h3.cons₂ tx, AddsTo.cons hadd h5⟩
  | case4 s res tr tx rest htx hadd ih =>
    intro e sFin h
    conv_lhs at h => rw [mineLoop.eq_def]
    simp only [htx, if_false, hadd] at h
    obtain ⟨he, inc, rs, ts, h3, h5⟩ := ih e sFin h
    exact ⟨he, inc, rs, ts,
      h3.trans ((List.filter_sublist rest).trans
        (List.sublist_cons_self tx rest)), h5⟩
  | case5 s res tr tx rest htx hadd ih =>
    intro e sFin h
    conv_lhs at h => rw [mineLoop.eq_def]
    simp only [htx, if_false, hadd] at h
    obtain ⟨he, inc, rs, ts, h3, h5⟩ := ih e sFin h
    exact ⟨he, inc, rs, ts,
      h3.trans ((List.filter_sublist rest).trans
        (List.sublist_cons_self tx rest)), h5⟩
  | case6 s res tr tx rest htx c hadd =>
    intro e sFin h
    conv_lhs at h => rw [mineLoop.eq_def]
    simp only [htx, if_false, hadd, Except.error.injEq, Prod.mk.injEq] at h
    obtain ⟨rfl, rfl⟩ := h
    exact ⟨⟨c, rfl⟩, [], [], [], List.nil_sublist _, AddsTo.nil s⟩

/-- C4: when the Block Builder's add fails on a transaction that met the
gas-price floor, the loop evicts the sender and continues exactly when the
failure is classified as exceeding remaining block gas or gas price below
the current base fee; every other failure aborts immediately with that
error and the current (not rolled back) state. -/
theorem add_failure_classification {σ : Type}
    (add : σ → PendingTransaction → AddOutcome σ) (m : Nat)
    (tx : OrderedTransaction) (rest : List OrderedTransaction) (s : σ)
    (res tr : List Nat) (e : AddError)
    (htx : ¬ tx.transaction.gas_price < m)
    (hadd : add s tx.transaction = AddOutcome.err e) :
    mineLoop add m (tx :: rest) s res tr =
      if e = AddError.exceedsBlockGasLimit ∨
          e = AddError.gasPriceLessThanBasefee then
        mineLoop add m (removeCaller tx.transaction.caller rest) s res tr
      else Except.error (e, s) := by
  conv_lhs => rw [mineLoop.eq_def]
  cases e with
  | exceedsBlockGasLimit => simp [htx, hadd]
  | gasPriceLessThanBasefee => simp [htx, hadd]
  | other c => simp [htx, hadd]

/-- Witness for C4: an unclassified failure (code 7) aborts the loop. -/
theorem add_failure_classification_witness :
    mineLoop (fun (_ : Nat) (_ : PendingTransaction) =>
        AddOutcome.err (AddError.other 7)) 10 [⟨⟨20, none, 0⟩, 0⟩] 0 [] [] =
      if AddError.other 7 = AddError.exceedsBlockGasLimit ∨
          AddError.other 7 = AddError.gasPriceLessThanBasefee then
        mineLoop (fun (_ : Nat) (_ : PendingTransaction) =>
          AddOutcome.err (AddError.other 7)) 10 (removeCaller 0 []) 0 [] []
      else Except.error (AddError.other 7, 0) :=
  add_failure_classification _ 10 ⟨⟨20, none, 0⟩, 0⟩ [] 0 [] []
    (AddError.other 7) (by decide) rfl

/-- C5: a transaction priced below the floor is skipped without being
executed and without surfacing an error, with the sender's remaining
queued transactions evicted; consequently every execution result of a
successful run comes from a chain of adds over transactions that all met
the floor, so no below-floor transaction appears in the results. -/
theorem below_floor_transactions_skipped {σ : Type}
    (add : σ → PendingTransaction → AddOutcome σ) (m : Nat)
    (tx : OrderedTransaction) (rest queue : List OrderedTransaction)
    (s : σ) (res tr results traces : List Nat) (sFin : σ)
    (htx : tx.transaction.gas_price < m)
    (hrun : mineLoop add m queue s [] [] =
      Except.ok (results, traces, sFin)) :
    (mineLoop add m (tx :: rest) s res tr =
      mineLoop add m (removeCaller tx.transaction.caller rest) s res tr) ∧
    ∃ included, List.Sublist included queue ∧
      (∀ u ∈ included, m ≤ u.transaction.gas_price) ∧
      AddsTo add s included results traces sFin := by
  refine ⟨mineLoop_below_floor_step add m tx rest s res tr htx, ?_⟩
  obtain ⟨inc, rs, ts, h1, h2, h3, h4, h5⟩ :=
    mineLoop_ok_chain add m queue s [] [] results traces sFin hrun
  simp only [List.nil_append] at h1 h2
  subst h1; subst h2
  exact ⟨inc, h3, fun u hu => Nat.le_of_not_lt (h4 u hu), h5⟩

/-- Witness for C5: floor 10, a below-floor transaction (price 5) against
a run over one above-floor transaction (price 20). -/
theorem below_floor_transactions_skipped_witness :
    (mineLoop (fun (s : Nat) (_ : PendingTransaction) =>
        AddOutcome.ok 42 7 s) 10 [⟨⟨5, none, 1⟩, 1⟩] 0 [] [] =
      mineLoop (fun (s : Nat) (_ : PendingTransaction) =>
        AddOutcome.ok 42 7 s) 10 (removeCaller 1 []) 0 [] []) ∧
    ∃ included, List.Sublist included [⟨⟨20, none, 0⟩, 0⟩] ∧
      (∀ u ∈ included, 10 ≤ u.transaction.gas_price) ∧
      AddsTo (fun (s : Nat) (_ : PendingTransaction) =>
        AddOutcome.ok 42 7 s) 0 included [42] [7] 0 :=
  below_floor_transactions_skipped _ 10 ⟨⟨5, none, 1⟩, 1⟩ []
    [⟨⟨20, none, 0⟩, 0⟩] 0 [] [] [42] [7] 0 (by decide)
    (by simp [mineLoop])

/-- C6: on success the results and traces have equal length and are, in
order, exactly the outcomes of the chain of included transactions — a
sublist of the queue the cursor offered. -/
theorem mine_results_traces_aligned {σ : Type}
    (add : σ → PendingTransaction → AddOutcome σ) (m : Nat)
    (queue : List OrderedTransaction) (s : σ)
    (results traces : List Nat) (sFin : σ)
    (h : mineLoop add m queue s [] [] =
      Except.ok (results, traces, sFin)) :
    results.length = traces.length ∧
    ∃ included, List.Sublist included queue ∧
      included.length = results.length ∧
      AddsTo add s included results traces sFin := by
  obtain ⟨inc, rs, ts, h1, h2, h3, h4, h5⟩ :=
    mineLoop_ok_chain add m queue s [] [] results traces sFin h
  simp only [List.nil_append] at h1 h2
  subst h1; subst h2
  obtain ⟨hl1, hl2⟩ := h5.lengths
  exact ⟨hl2, inc, h3, hl1, h5⟩

/-- Witness for C6 on a two-transaction queue whose second transaction is
below the floor. -/
theorem mine_results_traces_aligned_witness :
    List.length [42] = List.length [7] ∧
    ∃ included,
      List.Sublist included [⟨⟨20, none, 0⟩, 0⟩, ⟨⟨5, none, 1⟩, 1⟩] ∧
      included.length = List.length [42] ∧
      AddsTo (fun (s : Nat) (_ : PendingTransaction) =>
        AddOutcome.ok 42 7 s) 0 included [42] [7] 0 :=
  mine_results_traces_aligned _ 10
    [⟨⟨20, none, 0⟩, 0⟩, ⟨⟨5, none, 1⟩, 1⟩] 0 [42] [7] 0
    (by simp [mineLoop, removeCaller])

/-- C9: when the loop aborts with a fatal error, the state paired with the
error is the one reached by the chain of prior successful inclusions —
their effects are retained — while the results and traces those inclusions
produced (`rs`, `ts` below) are no part of the returned error value. -/
theorem fatal_abort_retains_state {σ : Type}
    (add : σ → PendingTransaction → AddOutcome σ) (m : Nat)
    (queue : List OrderedTransaction) (s : σ) (e : AddError) (sFin : σ)
    (h : mineLoop add m queue s [] [] = Except.error (e, sFin)) :
    (∃ c, e = AddError.other c) ∧
    ∃ included rs ts, List.Sublist included queue ∧
      AddsTo add s included rs ts sFin :=
  mineLoop_err_chain add m queue s [] [] e sFin h

/-- Witness for C9: one successful inclusion (state advances 0 → 1), then
a fatal failure; the error carries the advanced state. -/
theorem fatal_abort_retains_state_witness :
    (∃ c, AddError.other 3 = AddError.other c) ∧
    ∃ included rs ts,
      List.Sublist included [⟨⟨20, none, 0⟩, 0⟩, ⟨⟨30, none, 1⟩, 1⟩] ∧
      AddsTo (fun (s : Nat) (_ : PendingTransaction) =>
          if s = 0 then AddOutcome.ok 42 7 1
          else AddOutcome.err (AddError.other 3))
        0 included rs ts 1 :=
  fatal_abort_retains_state _ 10
    [⟨⟨20, none, 0⟩, 0⟩, ⟨⟨30, none, 1⟩, 1⟩] 0 (AddError.other 3) 1
    (by simp [mineLoop])
